import Mathlib

/-!
Verification of the data-element usage insight script
(`src/data_element_usage_insights.py`).

The script scans a tag-management property: for every data element it
builds a regex requiring the element's name to be enclosed by `%`, a
double quote, a single quote, or an escaped backslash followed by a
quote, and searches every other entity's stringified attributes for it.
The embedding below translates the matcher, the report builder and the
rule-component classification into executable Lean definitions.

Character-level conventions: Python strings become `List Char`; the
regex `(%|(\\\\)?"|(\\\\)?')name(%|(\\\\)?"|(\\\\)?')` (whose optional
groups match two literal backslash characters) becomes an explicit
alternation over literal delimiter strings, and `re.search` becomes a
scan over the suffixes of the text.  Entities (Python dicts) become a
structure with decidable (structural) equality, matching Python `==` on
dicts; the external `launchpy.extractAttributes` + `str` serialization
is a parameter `serialize : Entity → Option (List Char)` whose `none`
models the `TypeError` branch the script catches.
-/

namespace LaunchUsage

/-- The single-quote character (code 39). -/
def squote : Char := Char.ofNat 39

/-- The double-quote character (code 34). -/
def dquote : Char := Char.ofNat 34

/-- The backslash character (code 92). -/
def bslash : Char := Char.ofNat 92

/-- The opening-brace character (code 123). -/
def lbrace : Char := Char.ofNat 123

/-- The closing-brace character (code 125). -/
def rbrace : Char := Char.ofNat 125

/-- An entity of the property, modelling the dicts the script receives:
`type`, `attributes.name`, `attributes.delegate_descriptor_id` (used
only for rule components), the owning rule's name attached by the
fetcher, and `settings` standing for the remaining attribute payload.
Structural equality of the structure models Python `==` on dicts. -/
structure Entity where
  type : String
  name : String
  delegate_descriptor_id : String
  rule_name : String
  settings : String
  deriving DecidableEq

/-- The literal delimiter strings an enclosing side of the pattern can
match, read off the script's `enclosing` regex
`(%|(\\\\)?"|(\\\\)?')`: a percent sign, a double quote optionally
preceded by two literal backslashes, or a single quote optionally
preceded by two literal backslashes. -/
def enclosingAlts : List (List Char) :=
  [['%'], [bslash, bslash, dquote], [dquote], [bslash, bslash, squote], [squote]]

/-- Whether the pattern `enclosing ++ re.escape(name) ++ enclosing`
matches at the start of `s`: some delimiter alternative, then the name
literally, then some delimiter alternative, must be a prefix of `s`. -/
def patternMatchAt (name s : List Char) : Bool :=
  enclosingAlts.any fun d1 => enclosingAlts.any fun d2 =>
    List.isPrefixOf (d1 ++ name ++ d2) s

/-- Boolean semantics of `re.search` for the script's pattern: the
pattern matches at some position of the text, i.e. at the start of some
suffix. -/
def re_search (name : List Char) : List Char → Bool
  | [] => patternMatchAt name []
  | c :: t => patternMatchAt name (c :: t) || re_search name t

/-- Embedding of `find_occurrence_in_attributes`: serialize the
subject's attributes and search for the pattern; a failed serialization
(the caught `TypeError`) yields `none` in Python, hence `false` here
(`None` is falsy at the call site). -/
def find_occurrence_in_attributes (serialize : Entity → Option (List Char))
    (subject : Entity) (name : List Char) : Bool :=
  match serialize subject with
  | some attributes => re_search name attributes
  | none => false

/-- The results dict of the matcher: an insertion-ordered association
list from data-element names to the entities matched for them, exactly
what `results.setdefault(de_name, []).append(subject)` builds. -/
abbrev Results := List (String × List Entity)

/-- Embedding of `results.setdefault(k, []).append(c)`: append `c` to
the list stored at `k`, creating the key at the end on first use. -/
def appendResult : Results → String → Entity → Results
  | [], k, c => [(k, [c])]
  | (k', l) :: rest, k, c =>
    if k' = k then (k', l ++ [c]) :: rest else (k', l) :: appendResult rest k c

/-- One iteration of the outer loop of `find_data_element_usage`: scan
all subjects for data element `d`, skipping subjects structurally equal
to `d` (Python `subject == data_element`), appending matches to the
results and recording subjects whose serialization failed (the printed
message) in the log component. -/
def scanOne (serialize : Entity → Option (List Char)) (d : Entity) :
    Results × List Entity → List Entity → Results × List Entity
  | acc, [] => acc
  | acc, c :: rest =>
    if c = d then scanOne serialize d acc rest
    else
      match serialize c with
      | none => scanOne serialize d (acc.1, acc.2 ++ [c]) rest
      | some s =>
        if re_search d.name.toList s then
          scanOne serialize d (appendResult acc.1 d.name c, acc.2) rest
        else scanOne serialize d acc rest

/-- The outer loop of `find_data_element_usage` over the data
elements. -/
def usageLoop (serialize : Entity → Option (List Char)) (subjects : List Entity) :
    Results × List Entity → List Entity → Results × List Entity
  | acc, [] => acc
  | acc, d :: rest => usageLoop serialize subjects (scanOne serialize d acc subjects) rest

/-- Embedding of `find_data_element_usage`: for every data element,
scan `data_elements + rule_comps + extensions`; returns the results
dict together with the log of subjects whose serialization failed. -/
def find_data_element_usage (serialize : Entity → Option (List Char))
    (data_elements rule_comps extensions : List Entity) : Results × List Entity :=
  usageLoop serialize (data_elements ++ rule_comps ++ extensions) ([], []) data_elements

/-- The subjects recorded by `d`'s scan, as a filter: structurally
different from `d` and matching `d`'s pattern. -/
def scanMatches (serialize : Entity → Option (List Char)) (d : Entity)
    (subjects : List Entity) : List Entity :=
  subjects.filter fun c => !(c == d) && find_occurrence_in_attributes serialize c d.name.toList

/-- The subjects whose serialization fails during `d`'s scan, in scan
order. -/
def scanFails (serialize : Entity → Option (List Char)) (d : Entity)
    (subjects : List Entity) : List Entity :=
  subjects.filter fun c => !(c == d) && (serialize c).isNone

/-- Append a whole list of matches for one key, one `appendResult` at a
time. -/
def appendAll : Results → String → List Entity → Results
  | rs, _, [] => rs
  | rs, k, c :: cs => appendAll (appendResult rs k c) k cs

/-- Lookup of a key in the results dict. -/
def lookupKey : Results → String → Option (List Entity)
  | [], _ => none
  | (k', l) :: rest, k => if k' = k then some l else lookupKey rest k

/-- All matches accumulated under key `k` by the scans of the given
data elements: the concatenation, over the data elements named `k`, of
their scan matches. -/
def matchesFor (serialize : Entity → Option (List Char)) (subjects : List Entity)
    (k : String) (des : List Entity) : List Entity :=
  (((des.filter fun d => d.name == k).map fun d => scanMatches serialize d subjects)).flatten

/-- Embedding of `not_used = [names] - de_usage.keys()`: the set of
data-element names that are not keys of the usage mapping (Python set
difference of a list with the dict's keys). -/
def not_used (data_elements : List Entity) (results : Results) : Finset String :=
  (data_elements.map Entity.name).toFinset \ (results.map Prod.fst).toFinset

/-- Modelled serialization of an entity's extracted attributes: the
Python `str` of the dict holding `name` and `settings`, i.e.
`{'name': '<name>', 'settings': '<settings>'}` (values assumed to need
no escaping).  Used to instantiate the external serializer on concrete
inputs. -/
def strAttributes (e : Entity) : List Char :=
  [lbrace, squote] ++ "name".toList ++ [squote, ':', ' ', squote] ++ e.name.toList ++
    [squote, ',', ' ', squote] ++ "settings".toList ++ [squote, ':', ' ', squote] ++
    e.settings.toList ++ [squote, rbrace]

/-- A total serializer built from `strAttributes`. -/
def serializeAttrs (e : Entity) : Option (List Char) := some (strAttributes e)

/-- Delimiter strings as the specification describes them: a percent
sign, an optional escaped backslash (two literal backslash characters)
followed by a double quote, or an optional escaped backslash followed
by a single quote. -/
def IsEnclosingDelim (d : List Char) : Prop :=
  d = ['%'] ∨ d = [bslash, bslash, dquote] ∨ d = [dquote] ∨
    d = [bslash, bslash, squote] ∨ d = [squote]

/-- Specification-side reading of the pattern contract: the name occurs
in the text immediately enclosed on each side by one of the delimiter
strings (the two sides need not pick the same one). -/
def SpecEnclosedUsage (name text : List Char) : Prop :=
  ∃ pre d1 d2 post, IsEnclosingDelim d1 ∧ IsEnclosingDelim d2 ∧
    text = pre ++ (d1 ++ (name ++ (d2 ++ post)))

/-- The token `::actions::`. -/
def actTok : List Char := "::actions::".toList

/-- The token `::conditions::`. -/
def condTok : List Char := "::conditions::".toList

/-- The token `::events::`. -/
def evTok : List Char := "::events::".toList

/-- Boolean substring containment, the semantics of Python's
`sub in s`. -/
def hasSub (u : List Char) : List Char → Bool
  | [] => List.isPrefixOf u []
  | c :: t => List.isPrefixOf u (c :: t) || hasSub u t

/-- One position of the classifying regex
`::(actions|conditions|events)::`: which alternative matches at the
start of `s`, if any (at a fixed position at most one can). -/
def rcGroupAt (s : List Char) : Option String :=
  if List.isPrefixOf actTok s then some "actions"
  else if List.isPrefixOf condTok s then some "conditions"
  else if List.isPrefixOf evTok s then some "events"
  else none

/-- Embedding of
`re.search(r'::(actions|conditions|events)::', s).group(1)`: the group
of the leftmost match, `none` when the regex does not match (in Python
`.group(1)` then raises `AttributeError`). -/
def rcGroup : List Char → Option String
  | [] => rcGroupAt []
  | c :: t =>
    match rcGroupAt (c :: t) with
    | some g => some g
    | none => rcGroup t

/-- One row of the used table, with the columns the script emits. -/
structure OutputRow where
  data_element_name : String
  usage_in_type : String
  usage_in_name : String
  usage_in_rule_name : Option String
  deriving DecidableEq

/-- Embedding of the row comprehension building `output_list`: a rule
component's type becomes `rule_` plus the classifying regex group (and
`none` models the `AttributeError` crash when the regex finds
nothing), any other entity carries its own type and a null rule
name. -/
def buildRow (de_name : String) (subj : Entity) : Option OutputRow :=
  if subj.type = "rule_components" then
    match rcGroup subj.delegate_descriptor_id.toList with
    | some g => some ⟨de_name, "rule_" ++ g, subj.name, some subj.rule_name⟩
    | none => none
  else some ⟨de_name, subj.type, subj.name, none⟩

/-- The rows produced for one usage-mapping entry, failing if any row
construction fails. -/
def rowsFor (n : String) : List Entity → Option (List OutputRow)
  | [] => some []
  | s :: t =>
    match buildRow n s, rowsFor n t with
    | some r, some rs => some (r :: rs)
    | _, _ => none

/-- Embedding of the `output_list` construction: rows for every key of
the usage mapping in key order, concatenated. -/
def output_list : Results → Option (List OutputRow)
  | [] => some []
  | (n, l) :: rest =>
    match rowsFor n l, output_list rest with
    | some rs, some more => some (rs ++ more)
    | _, _ => none

/-- Embedding of
`[rc for rc in rule_comps if '::actions::' in rc['attributes']['delegate_descriptor_id']]`. -/
def rule_actions (rule_comps : List Entity) : List Entity :=
  rule_comps.filter fun rc => hasSub actTok rc.delegate_descriptor_id.toList

/-- The analogous filter for `::conditions::`. -/
def rule_conditions (rule_comps : List Entity) : List Entity :=
  rule_comps.filter fun rc => hasSub condTok rc.delegate_descriptor_id.toList

/-- The analogous filter for `::events::`. -/
def rule_events (rule_comps : List Entity) : List Entity :=
  rule_comps.filter fun rc => hasSub evTok rc.delegate_descriptor_id.toList

/-- The script's assertion
`len(rule_comps) == len(rule_actions) + len(rule_conditions) + len(rule_events)`. -/
def categoriesAssert (rule_comps : List Entity) : Bool :=
  rule_comps.length ==
    (rule_actions rule_comps).length + (rule_conditions rule_comps).length +
      (rule_events rule_comps).length

/-- How many of the three category tokens occur in a rule component's
delegate descriptor id. -/
def categoryCount (rc : Entity) : Nat :=
  (if hasSub actTok rc.delegate_descriptor_id.toList then 1 else 0) +
    (if hasSub condTok rc.delegate_descriptor_id.toList then 1 else 0) +
    (if hasSub evTok rc.delegate_descriptor_id.toList then 1 else 0)

/-! ### Concrete entities used by counterexamples and witnesses -/

/-- A data element named `X`; its serialized attributes quote the name,
so it matches the pattern for `X`. -/
def ceX : Entity := ⟨"data_elements", "X", "", "", "a"⟩

/-- A data element named `I` with inert settings. -/
def dI : Entity := ⟨"data_elements", "I", "", "", "i"⟩

/-- A data element named `J` whose settings reference `%I%`. -/
def dJ : Entity := ⟨"data_elements", "J", "", "", "%I%"⟩

/-- A data element named `H` with inert settings. -/
def dH : Entity := ⟨"data_elements", "H", "", "", "h"⟩

/-- A rule component whose settings reference `%H%`. -/
def cGood : Entity := ⟨"rule_components", "cg", "core::events::click", "R", "%H%"⟩

/-- An extension whose serialization fails under `serializeW3`. -/
def cBad : Entity := ⟨"extensions", "bad", "", "", "z"⟩

/-- A serializer that fails (models the caught `TypeError`) exactly on
the entity named `bad`. -/
def serializeW3 (e : Entity) : Option (List Char) :=
  if e.name = "bad" then none else some (strAttributes e)

/-- First of two distinct data elements sharing the name `X`. -/
def c4e1 : Entity := ⟨"data_elements", "X", "", "", "p"⟩

/-- Second of two distinct data elements sharing the name `X`. -/
def c4e2 : Entity := ⟨"data_elements", "X", "", "", "q"⟩

/-- A data element named `A` with inert settings. -/
def c4w1 : Entity := ⟨"data_elements", "A", "", "", "aa"⟩

/-- A data element named `B` with inert settings. -/
def c4w2 : Entity := ⟨"data_elements", "B", "", "", "bb"⟩

/-- First of two distinct data elements sharing the name `V`. -/
def c5e1 : Entity := ⟨"data_elements", "V", "", "", "p"⟩

/-- Second of two distinct data elements sharing the name `V`. -/
def c5e2 : Entity := ⟨"data_elements", "V", "", "", "q"⟩

/-- A data element named `C` with inert settings. -/
def c5w1 : Entity := ⟨"data_elements", "C", "", "", "z"⟩

/-- A data element named `D` whose settings reference `%C%`. -/
def c5w2 : Entity := ⟨"data_elements", "D", "", "", "%C%"⟩

/-- A data element named `G` with inert settings. -/
def c6w : Entity := ⟨"data_elements", "G", "", "", "g"⟩

/-- First of two distinct data elements sharing the name `W`. -/
def c7e1 : Entity := ⟨"data_elements", "W", "", "", "p"⟩

/-- Second of two distinct data elements sharing the name `W`. -/
def c7e2 : Entity := ⟨"data_elements", "W", "", "", "q"⟩

/-- A data element named `E` with inert settings. -/
def c7w1 : Entity := ⟨"data_elements", "E", "", "", "e"⟩

/-- A data element named `F` whose settings reference `%E%`. -/
def c7w2 : Entity := ⟨"data_elements", "F", "", "", "%E%"⟩

/-- A data element named `K` with inert settings. -/
def c9w : Entity := ⟨"data_elements", "K", "", "", "k"⟩

/-- A rule component whose descriptor contains both `::conditions::`
and `::actions::`, the former leftmost. -/
def subjBothCats : Entity :=
  ⟨"rule_components", "comp", "::conditions::actions::", "R", ""⟩

/-- The row the script builds for `subjBothCats` under key `X`. -/
def rowBothCats : OutputRow := ⟨"X", "rule_conditions", "comp", some "R"⟩

/-- A rule component whose descriptor contains only `::actions::`. -/
def subjOnlyAct : Entity :=
  ⟨"rule_components", "comp2", "core::actions::send", "R2", ""⟩

/-- The row the script builds for `subjOnlyAct` under key `Y`. -/
def rowOnlyAct : OutputRow := ⟨"Y", "rule_actions", "comp2", some "R2"⟩

/-- An extension entity appearing as a match. -/
def subjExt : Entity := ⟨"extensions", "ext1", "", "", ""⟩

/-- The row the script builds for `subjExt` under key `Y`. -/
def rowExt : OutputRow := ⟨"Y", "extensions", "ext1", none⟩

/-- A rule component whose descriptor contains `::actions::` and
`::conditions::` (counted twice by the category filters). -/
def rcBoth : Entity := ⟨"rule_components", "b", "::actions::conditions::", "R", ""⟩

/-- A rule component whose descriptor contains none of the category
tokens. -/
def rcNone : Entity := ⟨"rule_components", "n", "no-category", "R", ""⟩

/-- A rule component whose descriptor contains exactly
`::conditions::`. -/
def rcW10 : Entity := ⟨"rule_components", "w", "x::conditions::y", "R", ""⟩

/-- A serializer that always fails, for exercising the no-match
case. -/
def serNone : Entity → Option (List Char) := fun _ => none

/-! ### Lemmas about the pattern search -/

theorem mem_enclosingAlts_iff (d : List Char) :
    d ∈ enclosingAlts ↔ IsEnclosingDelim d := by
  simp [enclosingAlts, IsEnclosingDelim]

theorem patternMatchAt_iff (name t : List Char) :
    patternMatchAt name t = true ↔
      ∃ d1 d2, IsEnclosingDelim d1 ∧ IsEnclosingDelim d2 ∧ (d1 ++ name ++ d2) <+: t := by
  simp only [patternMatchAt, List.any_eq_true, List.isPrefixOf_iff_prefix,
    mem_enclosingAlts_iff]
  constructor
  · rintro ⟨d1, h1, d2, h2, hp⟩
    exact ⟨d1, d2, h1, h2, hp⟩
  · rintro ⟨d1, d2, h1, h2, hp⟩
    exact ⟨d1, h1, d2, h2, hp⟩

theorem re_search_iff_suffix (name s : List Char) :
    re_search name s = true ↔ ∃ t, t <:+ s ∧ patternMatchAt name t = true := by
  induction s with
  | nil =>
    simp [re_search, List.suffix_nil]
  | cons c t ih =>
    simp only [re_search, Bool.or_eq_true, ih, List.suffix_cons_iff]
    constructor
    · rintro (h | ⟨u, hu, hm⟩)
      · exact ⟨c :: t, Or.inl rfl, h⟩
      · exact ⟨u, Or.inr hu, hm⟩
    · rintro ⟨u, h | h, hm⟩
      · exact Or.inl (h ▸ hm)
      · exact Or.inr ⟨u, h, hm⟩

/-- The search reports the pattern exactly when the text decomposes
into an enclosed occurrence of the name. -/
theorem re_search_iff_spec (name s : List Char) :
    re_search name s = true ↔ SpecEnclosedUsage name s := by
  rw [re_search_iff_suffix]
  constructor
  · rintro ⟨t, ⟨pre, hpre⟩, hm⟩
    rcases (patternMatchAt_iff name t).1 hm with ⟨d1, d2, h1, h2, post, hpost⟩
    refine ⟨pre, d1, d2, post, h1, h2, ?_⟩
    rw [← hpre, ← hpost]
    simp [List.append_assoc]
  · rintro ⟨pre, d1, d2, post, h1, h2, htext⟩
    refine ⟨d1 ++ (name ++ (d2 ++ post)), ⟨pre, htext.symm⟩, ?_⟩
    refine (patternMatchAt_iff name _).2 ⟨d1, d2, h1, h2, post, ?_⟩
    simp [List.append_assoc]

/-! ### Characterization of the scan loop -/

theorem scanOne_eq (serialize : Entity → Option (List Char)) (d : Entity) :
    ∀ (subjects : List Entity) (acc : Results × List Entity),
      scanOne serialize d acc subjects =
        (appendAll acc.1 d.name (scanMatches serialize d subjects),
          acc.2 ++ scanFails serialize d subjects) := by
  intro subjects
  induction subjects with
  | nil => intro acc; simp [scanOne, scanMatches, scanFails, appendAll]
  | cons c rest ih =>
    intro acc
    by_cases hc : c = d
    · simp only [scanOne, if_pos hc, scanMatches, scanFails, List.filter_cons, hc,
        beq_self_eq_true, Bool.not_true, Bool.false_and, if_neg (by simp : ¬(false = true))]
      exact ih acc
    · have hbeq : (c == d) = false := beq_eq_false_iff_ne.2 hc
      cases hs : serialize c with
      | none =>
        have hocc : find_occurrence_in_attributes serialize c d.name.toList = false := by
          simp [find_occurrence_in_attributes, hs]
        simp only [scanOne, if_neg hc, hs, scanMatches, scanFails, List.filter_cons, hbeq,
          hocc, Bool.not_false, Bool.true_and, Option.isNone_none, if_neg (by simp :
            ¬(false = true)), if_pos rfl]
        rw [ih]
        simp [scanMatches, scanFails]
      | some s =>
        by_cases hm : re_search d.name.toList s = true
        · have hocc : find_occurrence_in_attributes serialize c d.name.toList = true := by
            simp only [find_occurrence_in_attributes, hs]
            exact hm
          simp only [scanOne, if_neg hc, hs, hm, if_pos rfl, scanMatches, scanFails,
            List.filter_cons, hbeq, hocc, Bool.not_false, Bool.true_and,
            Option.isNone_some, if_pos rfl, if_neg (by simp : ¬(false = true))]
          rw [ih]
          simp [scanMatches, scanFails, appendAll]
        · have hm' : re_search d.name.toList s = false := by
            cases h' : re_search d.name.toList s
            · rfl
            · exact absurd h' hm
          have hocc : find_occurrence_in_attributes serialize c d.name.toList = false := by
            simp only [find_occurrence_in_attributes, hs]
            exact hm'
          simp only [scanOne, if_neg hc, hs, hm', scanMatches, scanFails, List.filter_cons,
            hbeq, hocc, Bool.not_false, Bool.true_and, Option.isNone_some,
            if_neg (by simp : ¬(false = true)), Bool.false_eq_true]
          simp only [if_neg (by simp : ¬False)]
          exact ih acc

theorem usageLoop_eq (serialize : Entity → Option (List Char)) (subjects : List Entity) :
    ∀ (des : List Entity) (acc : Results × List Entity),
      usageLoop serialize subjects acc des =
        (des.foldl (fun rs d => appendAll rs d.name (scanMatches serialize d subjects)) acc.1,
          acc.2 ++ ((des.map fun d => scanFails serialize d subjects)).flatten) := by
  intro des
  induction des with
  | nil => intro acc; simp [usageLoop]
  | cons d rest ih =>
    intro acc
    simp only [usageLoop, scanOne_eq, ih, List.foldl_cons, List.map_cons, List.flatten_cons]
    simp [List.append_assoc]

/-! ### Lookup lemmas for the results dict -/

theorem lookupKey_appendResult_self (rs : Results) (k : String) (c : Entity) :
    lookupKey (appendResult rs k c) k = some (((lookupKey rs k).getD []) ++ [c]) := by
  induction rs with
  | nil => simp [appendResult, lookupKey]
  | cons p rest ih =>
    obtain ⟨k', l⟩ := p
    by_cases h : k' = k
    · simp [appendResult, lookupKey, h]
    · simp [appendResult, lookupKey, h, ih]

theorem lookupKey_appendResult_ne (rs : Results) (k : String) (c : Entity) (n : String)
    (h : n ≠ k) : lookupKey (appendResult rs k c) n = lookupKey rs n := by
  induction rs with
  | nil =>
    have hk : ¬k = n := fun he => h he.symm
    simp [appendResult, lookupKey, hk]
  | cons p rest ih =>
    obtain ⟨k', l⟩ := p
    simp only [appendResult]
    by_cases hk : k' = k
    · rw [if_pos hk]
      have hkn : ¬k' = n := fun he => h (he.symm.trans hk)
      simp only [lookupKey, if_neg hkn]
    · rw [if_neg hk]
      by_cases hn : k' = n
      · simp only [lookupKey, if_pos hn]
      · simp only [lookupKey, if_neg hn, ih]

theorem lookupKey_appendAll_self (k : String) :
    ∀ (cs : List Entity) (rs : Results), cs ≠ [] →
      lookupKey (appendAll rs k cs) k = some (((lookupKey rs k).getD []) ++ cs) := by
  intro cs
  induction cs with
  | nil => intro rs h; exact absurd rfl h
  | cons c cs' ih =>
    intro rs _
    by_cases h' : cs' = []
    · subst h'
      simp [appendAll, lookupKey_appendResult_self]
    · simp only [appendAll]
      rw [ih (appendResult rs k c) h', lookupKey_appendResult_self]
      simp

theorem lookupKey_appendAll_ne (k n : String) (h : n ≠ k) :
    ∀ (cs : List Entity) (rs : Results),
      lookupKey (appendAll rs k cs) n = lookupKey rs n := by
  intro cs
  induction cs with
  | nil => intro rs; simp [appendAll]
  | cons c cs' ih =>
    intro rs
    simp only [appendAll]
    rw [ih, lookupKey_appendResult_ne rs k c n h]

theorem matchesFor_cons (serialize : Entity → Option (List Char)) (subjects : List Entity)
    (k : String) (d : Entity) (rest : List Entity) :
    matchesFor serialize subjects k (d :: rest) =
      if d.name = k then scanMatches serialize d subjects ++ matchesFor serialize subjects k rest
      else matchesFor serialize subjects k rest := by
  by_cases h : d.name = k
  · simp [matchesFor, List.filter_cons, h]
  · simp [matchesFor, List.filter_cons, h]

theorem lookupKey_foldl (serialize : Entity → Option (List Char)) (subjects : List Entity)
    (k : String) :
    ∀ (des : List Entity) (rs0 : Results),
      lookupKey
          (des.foldl (fun rs d => appendAll rs d.name (scanMatches serialize d subjects)) rs0)
          k =
        if matchesFor serialize subjects k des = [] then lookupKey rs0 k
        else some (((lookupKey rs0 k).getD []) ++ matchesFor serialize subjects k des) := by
  intro des
  induction des with
  | nil => intro rs0; simp [matchesFor]
  | cons d rest ih =>
    intro rs0
    simp only [List.foldl_cons]
    rw [ih, matchesFor_cons]
    by_cases hk : d.name = k
    · rw [if_pos hk, hk]
      by_cases hsm : scanMatches serialize d subjects = []
      · simp only [hsm, List.nil_append, appendAll]
      · by_cases hmr : matchesFor serialize subjects k rest = []
        · have hne : scanMatches serialize d subjects ++
              matchesFor serialize subjects k rest ≠ [] := by
            simp [hmr, hsm]
          rw [if_pos hmr, if_neg hne, lookupKey_appendAll_self k _ rs0 hsm, hmr]
          simp
        · have hne : scanMatches serialize d subjects ++
              matchesFor serialize subjects k rest ≠ [] := by
            intro h
            exact hsm (List.append_eq_nil.1 h).1
          rw [if_neg hmr, if_neg hne, lookupKey_appendAll_self k _ rs0 hsm]
          simp
    · rw [if_neg hk]
      rw [lookupKey_appendAll_ne d.name k (fun he => hk he.symm)]

theorem lookupKey_find (serialize : Entity → Option (List Char))
    (des rcs exts : List Entity) (k : String) :
    lookupKey (find_data_element_usage serialize des rcs exts).1 k =
      if matchesFor serialize (des ++ rcs ++ exts) k des = [] then none
      else some (matchesFor serialize (des ++ rcs ++ exts) k des) := by
  unfold find_data_element_usage
  rw [usageLoop_eq]
  dsimp only
  rw [lookupKey_foldl]
  simp [lookupKey]

theorem log_find (serialize : Entity → Option (List Char)) (des rcs exts : List Entity) :
    (find_data_element_usage serialize des rcs exts).2 =
      ((des.map fun d => scanFails serialize d (des ++ rcs ++ exts))).flatten := by
  unfold find_data_element_usage
  rw [usageLoop_eq]
  dsimp only
  simp

theorem mem_scanMatches (serialize : Entity → Option (List Char)) (d : Entity)
    (subjects : List Entity) (c : Entity) :
    c ∈ scanMatches serialize d subjects ↔
      c ∈ subjects ∧ c ≠ d ∧
        find_occurrence_in_attributes serialize c d.name.toList = true := by
  simp [scanMatches, List.mem_filter, and_assoc]

theorem mem_matchesFor (serialize : Entity → Option (List Char)) (subjects : List Entity)
    (k : String) (des : List Entity) (c : Entity) :
    c ∈ matchesFor serialize subjects k des ↔
      ∃ d, d ∈ des ∧ d.name = k ∧ c ∈ subjects ∧ c ≠ d ∧
        find_occurrence_in_attributes serialize c d.name.toList = true := by
  simp only [matchesFor, List.mem_flatten, List.mem_map]
  constructor
  · rintro ⟨l, ⟨d, hd, rfl⟩, hc⟩
    rcases List.mem_filter.1 hd with ⟨hdes, hname⟩
    rcases (mem_scanMatches serialize d subjects c).1 hc with ⟨hcs, hne, hocc⟩
    exact ⟨d, hdes, beq_iff_eq.1 hname, hcs, hne, hocc⟩
  · rintro ⟨d, hdes, hname, hcs, hne, hocc⟩
    exact ⟨scanMatches serialize d subjects,
      ⟨d, List.mem_filter.2 ⟨hdes, beq_iff_eq.2 hname⟩, rfl⟩,
      (mem_scanMatches serialize d subjects c).2 ⟨hcs, hne, hocc⟩⟩

/-! ### Keys of the results dict -/

theorem keys_appendResult (rs : Results) (k : String) (c : Entity) :
    (appendResult rs k c).map Prod.fst =
      if k ∈ rs.map Prod.fst then rs.map Prod.fst else rs.map Prod.fst ++ [k] := by
  induction rs with
  | nil => simp [appendResult]
  | cons p rest ih =>
    obtain ⟨k', l⟩ := p
    by_cases h : k' = k
    · simp [appendResult, h]
    · have hne : ¬k = k' := fun he => h he.symm
      by_cases hm : k ∈ rest.map Prod.fst
      · simp [appendResult, h, ih, hm, hne, List.mem_cons]
      · simp [appendResult, h, ih, hm, hne, List.mem_cons]

theorem mem_keys_appendResult (rs : Results) (k : String) (c : Entity) :
    k ∈ (appendResult rs k c).map Prod.fst := by
  rw [keys_appendResult]
  by_cases h : k ∈ rs.map Prod.fst
  · simp [h]
  · simp [h]

theorem keys_appendAll (k : String) :
    ∀ (cs : List Entity) (rs : Results), cs ≠ [] →
      (appendAll rs k cs).map Prod.fst =
        if k ∈ rs.map Prod.fst then rs.map Prod.fst else rs.map Prod.fst ++ [k] := by
  intro cs
  induction cs with
  | nil => intro rs h; exact absurd rfl h
  | cons c cs' ih =>
    intro rs _
    by_cases h' : cs' = []
    · subst h'
      simp only [appendAll]
      exact keys_appendResult rs k c
    · simp only [appendAll]
      rw [ih (appendResult rs k c) h', keys_appendResult]
      have hk := mem_keys_appendResult rs k c
      rw [keys_appendResult] at hk
      simp only [hk, if_pos]

theorem nodup_keys_appendAll (k : String) (cs : List Entity) (rs : Results)
    (h : (rs.map Prod.fst).Nodup) : ((appendAll rs k cs).map Prod.fst).Nodup := by
  by_cases hcs : cs = []
  · subst hcs
    simpa [appendAll] using h
  · rw [keys_appendAll k cs rs hcs]
    by_cases hm : k ∈ rs.map Prod.fst
    · simpa [hm] using h
    · rw [if_neg hm]
      rw [List.nodup_append]
      refine ⟨h, List.nodup_singleton k, ?_⟩
      intro a ha hb
      rw [List.mem_singleton] at hb
      exact hm (hb ▸ ha)

theorem nodup_keys_foldl (serialize : Entity → Option (List Char)) (subjects : List Entity) :
    ∀ (des : List Entity) (rs0 : Results), (rs0.map Prod.fst).Nodup →
      ((des.foldl (fun rs d => appendAll rs d.name (scanMatches serialize d subjects))
          rs0).map Prod.fst).Nodup := by
  intro des
  induction des with
  | nil => intro rs0 h; simpa using h
  | cons d rest ih =>
    intro rs0 h
    simp only [List.foldl_cons]
    exact ih _ (nodup_keys_appendAll d.name _ rs0 h)

theorem nodup_keys_find (serialize : Entity → Option (List Char))
    (des rcs exts : List Entity) :
    (((find_data_element_usage serialize des rcs exts).1).map Prod.fst).Nodup := by
  unfold find_data_element_usage
  rw [usageLoop_eq]
  dsimp only
  exact nodup_keys_foldl serialize (des ++ rcs ++ exts) des [] (by simp)

theorem lookupKey_eq_none_iff (rs : Results) (k : String) :
    lookupKey rs k = none ↔ k ∉ rs.map Prod.fst := by
  induction rs with
  | nil => simp [lookupKey]
  | cons p rest ih =>
    obtain ⟨k', l⟩ := p
    by_cases h : k' = k
    · simp [lookupKey, h]
    · have hne : ¬k = k' := fun he => h he.symm
      simp [lookupKey, h, ih, hne, List.mem_cons]

theorem mem_keys_find_iff (serialize : Entity → Option (List Char))
    (des rcs exts : List Entity) (k : String) :
    k ∈ ((find_data_element_usage serialize des rcs exts).1).map Prod.fst ↔
      matchesFor serialize (des ++ rcs ++ exts) k des ≠ [] := by
  constructor
  · intro hk hmf
    have hnone : lookupKey (find_data_element_usage serialize des rcs exts).1 k = none := by
      rw [lookupKey_find, if_pos hmf]
    exact (lookupKey_eq_none_iff _ _).1 hnone hk
  · intro hmf
    by_contra hk
    have hnone := (lookupKey_eq_none_iff _ _).2 hk
    rw [lookupKey_find, if_neg hmf] at hnone
    exact Option.noConfusion hnone

theorem filter_name_eq_self (des : List Entity) (d : Entity)
    (hnd : (des.map Entity.name).Nodup) (hd : d ∈ des) :
    (des.filter fun x => x.name == d.name) = [d] := by
  induction des with
  | nil => cases hd
  | cons a rest ih =>
    rw [List.map_cons, List.nodup_cons] at hnd
    obtain ⟨hna, hnr⟩ := hnd
    rcases List.mem_cons.1 hd with rfl | hdr
    · have hrest : rest.filter (fun x => x.name == d.name) = [] := by
        rw [List.filter_eq_nil_iff]
        intro x hx hxe
        exact hna ((beq_iff_eq.1 hxe) ▸ List.mem_map_of_mem Entity.name hx)
      simp [List.filter_cons, hrest]
    · have hne : (a.name == d.name) = false := by
        rw [beq_eq_false_iff_ne]
        intro he
        exact hna (he ▸ List.mem_map_of_mem Entity.name hdr)
      simp [List.filter_cons, hne, ih hnr hdr]

theorem matchesFor_unique (serialize : Entity → Option (List Char)) (subjects : List Entity)
    (des : List Entity) (d : Entity) (hnd : (des.map Entity.name).Nodup) (hd : d ∈ des) :
    matchesFor serialize subjects d.name des = scanMatches serialize d subjects := by
  unfold matchesFor
  rw [filter_name_eq_self des d hnd hd]
  simp

/-! ### Claim theorems -/

/-- C1: for every data element name, the matcher reports the name as
used in a text exactly when the name occurs immediately enclosed on
each side by a percent sign, an optional escaped backslash followed by
a double quote, or an optional escaped backslash followed by a single
quote, the two sides being chosen independently; in particular `%X%`
and a single-quoted `X` match while `aXb` and bare `X` do not. -/
theorem c1_pattern_encloses :
    (∀ name text : List Char, re_search name text = true ↔ SpecEnclosedUsage name text)
    ∧ re_search ['X'] ['%', 'X', '%'] = true
    ∧ re_search ['X'] [squote, 'X', squote] = true
    ∧ re_search ['X'] ['a', 'X', 'b'] = false
    ∧ re_search ['X'] ['X'] = false := by
  refine ⟨re_search_iff_spec, ?_, ?_, ?_, ?_⟩ <;> decide

/-- C2, corrected: the self-skip is a structural-equality comparison,
so every entity recorded under key `k` is structurally different from a
data element named `k` whose scan recorded it (and, per the
counterexample, a distinct candidate structurally identical to the data
element is skipped rather than considered). -/
theorem c2_structural_skip (serialize : Entity → Option (List Char))
    (des rcs exts : List Entity) (k : String) (l : List Entity) (c : Entity)
    (h1 : lookupKey (find_data_element_usage serialize des rcs exts).1 k = some l)
    (h2 : c ∈ l) :
    ∃ d, d ∈ des ∧ d.name = k ∧ c ≠ d ∧
      find_occurrence_in_attributes serialize c k.toList = true := by
  rw [lookupKey_find] at h1
  by_cases hmf : matchesFor serialize (des ++ rcs ++ exts) k des = []
  · rw [if_pos hmf] at h1
    exact Option.noConfusion h1
  · rw [if_neg hmf] at h1
    have hleq : l = matchesFor serialize (des ++ rcs ++ exts) k des :=
      (Option.some.inj h1).symm
    rw [hleq] at h2
    rcases (mem_matchesFor serialize (des ++ rcs ++ exts) k des c).1 h2 with
      ⟨d, hd, hname, _, hne, hocc⟩
    exact ⟨d, hd, hname, hne, hname ▸ hocc⟩

/-- C2, counterexample to the claim as stated: two structurally
identical data elements named `X`; the candidate matches the pattern
for `X`, yet the scan records nothing because the structural-equality
skip removes the structurally identical candidate, which an
identity-comparison skip would have considered. -/
theorem c2_structural_skip_counterexample :
    find_data_element_usage serializeAttrs [ceX, ceX] [] [] = ([], [])
    ∧ find_occurrence_in_attributes serializeAttrs ceX "X".toList = true := by
  constructor
  · decide
  · decide

/-- C2 witness: a concrete run in which a recorded match is exhibited
with its structurally distinct data element. -/
theorem c2_structural_skip_witness :
    ∃ d, d ∈ [dI, dJ] ∧ d.name = "I" ∧ dJ ≠ d ∧
      find_occurrence_in_attributes serializeAttrs dJ "I".toList = true :=
  c2_structural_skip serializeAttrs [dI, dJ] [] [] "I" [dJ] dJ (by decide) (by decide)

/-- C3: a candidate whose serialization fails is never recorded as a
match, and the scan runs to completion over all pairs, logging exactly
the failing (data element, candidate) pairs in scan order; the failure
is never raised to the caller (the embedded matcher is total). -/
theorem c3_serialization_failure_isolated (serialize : Entity → Option (List Char))
    (des rcs exts : List Entity) (k : String) (l : List Entity) (c : Entity)
    (h1 : lookupKey (find_data_element_usage serialize des rcs exts).1 k = some l)
    (h2 : c ∈ l) :
    (serialize c).isSome = true
    ∧ (find_data_element_usage serialize des rcs exts).2 =
        ((des.map fun d => scanFails serialize d (des ++ rcs ++ exts))).flatten := by
  refine ⟨?_, log_find serialize des rcs exts⟩
  rw [lookupKey_find] at h1
  by_cases hmf : matchesFor serialize (des ++ rcs ++ exts) k des = []
  · rw [if_pos hmf] at h1
    exact Option.noConfusion h1
  · rw [if_neg hmf] at h1
    have hleq : l = matchesFor serialize (des ++ rcs ++ exts) k des :=
      (Option.some.inj h1).symm
    rw [hleq] at h2
    rcases (mem_matchesFor serialize (des ++ rcs ++ exts) k des c).1 h2 with
      ⟨d, _, _, _, _, hocc⟩
    cases hs : serialize c with
    | none =>
      have : find_occurrence_in_attributes serialize c d.name.toList = false := by
        simp [find_occurrence_in_attributes, hs]
      rw [this] at hocc
      exact Bool.noConfusion hocc
    | some s => rfl

/-- C3 witness: a concrete run with one failing candidate (logged) and
one successful match. -/
theorem c3_serialization_failure_isolated_witness :
    (serializeW3 cGood).isSome = true
    ∧ (find_data_element_usage serializeW3 [dH] [] [cGood, cBad]).2 =
        (([dH].map fun d => scanFails serializeW3 d ([dH] ++ [] ++ [cGood, cBad]))).flatten :=
  c3_serialization_failure_isolated serializeW3 [dH] [] [cGood, cBad] "H" [cGood] cGood
    (by decide) (by decide)

/-- C4, corrected: unconditionally, no name is both a key of the usage
mapping and a row of the unused table; and when the data-element names
are pairwise distinct, the number of keys of the usage mapping plus the
number of rows of the unused table equals the number of data
elements. -/
theorem c4_completeness (serialize : Entity → Option (List Char))
    (des rcs exts : List Entity) :
    (∀ k, k ∈ ((find_data_element_usage serialize des rcs exts).1).map Prod.fst →
        k ∉ not_used des (find_data_element_usage serialize des rcs exts).1)
    ∧ ((des.map Entity.name).Nodup →
        ((find_data_element_usage serialize des rcs exts).1).length
          + (not_used des (find_data_element_usage serialize des rcs exts).1).card
          = des.length) := by
  have hkeysnd := nodup_keys_find serialize des rcs exts
  have hsub :
      (((find_data_element_usage serialize des rcs exts).1).map Prod.fst).toFinset ⊆
        (des.map Entity.name).toFinset := by
    intro k hk
    rw [List.mem_toFinset] at hk ⊢
    have hmf := (mem_keys_find_iff serialize des rcs exts k).1 hk
    rcases List.exists_mem_of_ne_nil _ hmf with ⟨c, hc⟩
    rcases (mem_matchesFor serialize (des ++ rcs ++ exts) k des c).1 hc with
      ⟨d, hd, hname, _, _, _⟩
    exact hname ▸ List.mem_map_of_mem Entity.name hd
  constructor
  · intro k hk hcontra
    rcases Finset.mem_sdiff.1 hcontra with ⟨_, hnotk⟩
    exact hnotk (List.mem_toFinset.2 hk)
  · intro hnd
    have hc1 : (((find_data_element_usage serialize des rcs exts).1).map
        Prod.fst).toFinset.card = ((find_data_element_usage serialize des rcs exts).1).length := by
      rw [List.toFinset_card_of_nodup hkeysnd, List.length_map]
    have hc2 : ((des.map Entity.name).toFinset).card = des.length := by
      rw [List.toFinset_card_of_nodup hnd, List.length_map]
    have hle := Finset.card_le_card hsub
    have hsd := Finset.card_sdiff hsub
    rw [not_used]
    omega

/-- C4, counterexample to the claim as stated: two distinct data
elements share the name `X` and match each other, so the mapping has
one key and the unused table no row, but there are two data
elements. -/
theorem c4_completeness_counterexample :
    ((find_data_element_usage serializeAttrs [c4e1, c4e2] [] []).1).length
        + (not_used [c4e1, c4e2]
            (find_data_element_usage serializeAttrs [c4e1, c4e2] [] []).1).card
      ≠ [c4e1, c4e2].length := by decide

/-- C4 witness: with the two distinctly named data elements `A` and
`B`, the key count plus the unused count is the data-element count. -/
theorem c4_completeness_witness :
    ((find_data_element_usage serializeAttrs [c4w1, c4w2] [] []).1).length
        + (not_used [c4w1, c4w2]
            (find_data_element_usage serializeAttrs [c4w1, c4w2] [] []).1).card = 2 :=
  (c4_completeness serializeAttrs [c4w1, c4w2] [] []).2 (by decide)

/-- C5, corrected: when the data-element names are pairwise distinct,
no data element appears in the usage list recorded under its own
name. -/
theorem c5_no_self_match (serialize : Entity → Option (List Char))
    (des rcs exts : List Entity) (d : Entity) (l : List Entity)
    (hnd : (des.map Entity.name).Nodup) (hd : d ∈ des)
    (hl : lookupKey (find_data_element_usage serialize des rcs exts).1 d.name = some l) :
    d ∉ l := by
  rw [lookupKey_find] at hl
  by_cases hmf : matchesFor serialize (des ++ rcs ++ exts) d.name des = []
  · rw [if_pos hmf] at hl
    exact Option.noConfusion hl
  · rw [if_neg hmf] at hl
    have hleq : l = matchesFor serialize (des ++ rcs ++ exts) d.name des :=
      (Option.some.inj hl).symm
    rw [hleq, matchesFor_unique serialize (des ++ rcs ++ exts) des d hnd hd]
    intro hmem
    rcases (mem_scanMatches serialize d (des ++ rcs ++ exts) d).1 hmem with ⟨_, hne, _⟩
    exact hne rfl

/-- C5, counterexample to the claim as stated: two distinct data
elements share the name `V`; each is recorded during the other's scan,
so the first data element appears in the usage list stored under its
own name. -/
theorem c5_no_self_match_counterexample :
    (find_data_element_usage serializeAttrs [c5e1, c5e2] [] []).1 = [("V", [c5e2, c5e1])]
    ∧ c5e1 ∈ [c5e2, c5e1] ∧ c5e1.name = "V" ∧ c5e1 ∈ [c5e1, c5e2] := by decide

/-- C5 witness: a concrete uniquely named run where the data element is
absent from its own usage list. -/
theorem c5_no_self_match_witness : c5w1 ∉ [c5w2] :=
  c5_no_self_match serializeAttrs [c5w1, c5w2] [] [] c5w1 [c5w2]
    (by decide) (by decide) (by decide)

/-- C6: if no candidate entity's serialized attributes match a data
element's pattern, the element's name is absent from the usage mapping,
and the mapping never binds a key to an empty list. -/
theorem c6_absent_when_unmatched (serialize : Entity → Option (List Char))
    (des rcs exts : List Entity) (d : Entity) (_hd : d ∈ des)
    (hno : ∀ c, c ∈ des ++ rcs ++ exts →
      find_occurrence_in_attributes serialize c d.name.toList = false) :
    lookupKey (find_data_element_usage serialize des rcs exts).1 d.name = none
    ∧ ∀ k l, lookupKey (find_data_element_usage serialize des rcs exts).1 k = some l →
        l ≠ [] := by
  constructor
  · rw [lookupKey_find]
    have hmf : matchesFor serialize (des ++ rcs ++ exts) d.name des = [] := by
      rw [List.eq_nil_iff_forall_not_mem]
      intro c hc
      rcases (mem_matchesFor serialize (des ++ rcs ++ exts) d.name des c).1 hc with
        ⟨d', _, hname, hcs, _, hocc⟩
      rw [hname] at hocc
      rw [hno c hcs] at hocc
      exact Bool.noConfusion hocc
    rw [if_pos hmf]
  · intro k l hl
    rw [lookupKey_find] at hl
    by_cases hmf : matchesFor serialize (des ++ rcs ++ exts) k des = []
    · rw [if_pos hmf] at hl
      exact Option.noConfusion hl
    · rw [if_neg hmf] at hl
      have hlm : matchesFor serialize (des ++ rcs ++ exts) k des = l := Option.some.inj hl
      intro hle
      exact hmf (hlm.trans hle)

/-- C6 witness: with an always-failing serializer nothing matches, and
the lone data element's name is absent from the mapping. -/
theorem c6_absent_when_unmatched_witness :
    lookupKey (find_data_element_usage serNone [c6w] [] []).1 "G" = none :=
  (c6_absent_when_unmatched serNone [c6w] [] [] c6w (by decide) (by decide)).1

/-- C7, corrected: when the data-element names are pairwise distinct,
the usage list recorded under a data element's name is a sublist (an
order-preserving selection) of the scanned candidates, data elements
first, then rule components, then extensions, each in fetch order. -/
theorem c7_order_preserved (serialize : Entity → Option (List Char))
    (des rcs exts : List Entity) (d : Entity) (l : List Entity)
    (hnd : (des.map Entity.name).Nodup) (hd : d ∈ des)
    (hl : lookupKey (find_data_element_usage serialize des rcs exts).1 d.name = some l) :
    List.Sublist l (des ++ rcs ++ exts) := by
  rw [lookupKey_find] at hl
  by_cases hmf : matchesFor serialize (des ++ rcs ++ exts) d.name des = []
  · rw [if_pos hmf] at hl
    exact Option.noConfusion hl
  · rw [if_neg hmf] at hl
    have hleq : l = matchesFor serialize (des ++ rcs ++ exts) d.name des :=
      (Option.some.inj hl).symm
    rw [hleq, matchesFor_unique serialize (des ++ rcs ++ exts) des d hnd hd]
    simp only [scanMatches]
    exact List.filter_sublist _

/-- C7, counterexample to the claim as stated: two distinct data
elements share the name `W`; the usage list under `W` is `[second,
first]`, which is not an order-preserving selection of the scan order
`[first, second]`. -/
theorem c7_order_counterexample :
    lookupKey (find_data_element_usage serializeAttrs [c7e1, c7e2] [] []).1 "W"
      = some [c7e2, c7e1]
    ∧ ¬ List.Sublist [c7e2, c7e1] ([c7e1, c7e2] ++ [] ++ []) := by
  constructor
  · decide
  · intro h
    have h2 := h.eq_of_length (by decide)
    exact absurd h2 (by decide)

/-- C7 witness: a concrete uniquely named run whose usage list is a
sublist of the scanned candidates. -/
theorem c7_order_witness : List.Sublist [c7w2] ([c7w1, c7w2] ++ [] ++ []) :=
  c7_order_preserved serializeAttrs [c7w1, c7w2] [] [] c7w1 [c7w2]
    (by decide) (by decide) (by decide)

/-- A rule-component descriptor containing the actions token and
neither of the other two classifies as `actions`. -/
theorem rcGroup_of_only_actions (s : List Char)
    (ha : hasSub actTok s = true) (hc : hasSub condTok s = false)
    (he : hasSub evTok s = false) : rcGroup s = some "actions" := by
  induction s with
  | nil => exact absurd ha (by decide)
  | cons c t ih =>
    simp only [hasSub] at ha hc he
    rcases Bool.or_eq_false_iff.1 hc with ⟨hc1, hc2⟩
    rcases Bool.or_eq_false_iff.1 he with ⟨he1, he2⟩
    by_cases hpa : List.isPrefixOf actTok (c :: t) = true
    · simp [rcGroup, rcGroupAt, hpa]
    · have hpa' : List.isPrefixOf actTok (c :: t) = false := by
        cases h : List.isPrefixOf actTok (c :: t)
        · rfl
        · exact absurd h hpa
      rw [hpa', Bool.false_or] at ha
      simp only [rcGroup, rcGroupAt, hpa', hc1, he1, Bool.false_eq_true, if_false]
      exact ih ha hc2 he2

/-- A rule-component descriptor containing the conditions token and
neither of the other two classifies as `conditions`. -/
theorem rcGroup_of_only_conditions (s : List Char)
    (hc : hasSub condTok s = true) (ha : hasSub actTok s = false)
    (he : hasSub evTok s = false) : rcGroup s = some "conditions" := by
  induction s with
  | nil => exact absurd hc (by decide)
  | cons c t ih =>
    simp only [hasSub] at ha hc he
    rcases Bool.or_eq_false_iff.1 ha with ⟨ha1, ha2⟩
    rcases Bool.or_eq_false_iff.1 he with ⟨he1, he2⟩
    by_cases hpc : List.isPrefixOf condTok (c :: t) = true
    · simp [rcGroup, rcGroupAt, hpc, ha1]
    · have hpc' : List.isPrefixOf condTok (c :: t) = false := by
        cases h : List.isPrefixOf condTok (c :: t)
        · rfl
        · exact absurd h hpc
      rw [hpc', Bool.false_or] at hc
      simp only [rcGroup, rcGroupAt, ha1, hpc', he1, Bool.false_eq_true, if_false]
      exact ih hc ha2 he2

/-- A rule-component descriptor containing the events token and neither
of the other two classifies as `events`. -/
theorem rcGroup_of_only_events (s : List Char)
    (he : hasSub evTok s = true) (ha : hasSub actTok s = false)
    (hc : hasSub condTok s = false) : rcGroup s = some "events" := by
  induction s with
  | nil => exact absurd he (by decide)
  | cons c t ih =>
    simp only [hasSub] at ha hc he
    rcases Bool.or_eq_false_iff.1 ha with ⟨ha1, ha2⟩
    rcases Bool.or_eq_false_iff.1 hc with ⟨hc1, hc2⟩
    by_cases hpe : List.isPrefixOf evTok (c :: t) = true
    · simp [rcGroup, rcGroupAt, hpe, ha1, hc1]
    · have hpe' : List.isPrefixOf evTok (c :: t) = false := by
        cases h : List.isPrefixOf evTok (c :: t)
        · rfl
        · exact absurd h hpe
      rw [hpe', Bool.false_or] at he
      simp only [rcGroup, rcGroupAt, ha1, hc1, hpe', Bool.false_eq_true, if_false]
      exact ih he ha2 hc2

/-- Every row built for a subject of a successfully converted usage
entry appears in the produced used table. -/
theorem mem_rowsFor (n : String) :
    ∀ (l : List Entity) (rs : List OutputRow) (subj : Entity) (r : OutputRow),
      rowsFor n l = some rs → subj ∈ l → buildRow n subj = some r → r ∈ rs := by
  intro l
  induction l with
  | nil => intro rs subj r _ hm; cases hm
  | cons s t ih =>
    intro rs subj r hrows hm hb
    rcases List.mem_cons.1 hm with rfl | hmt
    · simp only [rowsFor, hb] at hrows
      cases hrest : rowsFor n t with
      | none => rw [hrest] at hrows; exact Option.noConfusion hrows
      | some more =>
        rw [hrest] at hrows
        have : r :: more = rs := Option.some.inj hrows
        rw [← this]
        exact List.mem_cons_self r more
    · simp only [rowsFor] at hrows
      cases hb' : buildRow n s with
      | none => rw [hb'] at hrows; exact Option.noConfusion hrows
      | some r' =>
        cases hrest : rowsFor n t with
        | none => rw [hb', hrest] at hrows; exact Option.noConfusion hrows
        | some more =>
          rw [hb', hrest] at hrows
          have : r' :: more = rs := Option.some.inj hrows
          rw [← this]
          exact List.mem_cons_of_mem r' (ih more subj r hrest hmt hb)

/-- Every usage-mapping entry of a successfully converted mapping has
its rows inside the produced used table. -/
theorem mem_output_list :
    ∀ (usage : Results) (rows : List OutputRow) (n : String) (l : List Entity)
      (subj : Entity) (r : OutputRow),
      output_list usage = some rows → (n, l) ∈ usage → subj ∈ l →
        buildRow n subj = some r → r ∈ rows := by
  intro usage
  induction usage with
  | nil => intro rows n l subj r _ hm; cases hm
  | cons p rest ih =>
    obtain ⟨n', l'⟩ := p
    intro rows n l subj r hout hm hsub hb
    simp only [output_list] at hout
    cases hrows : rowsFor n' l' with
    | none => rw [hrows] at hout; exact Option.noConfusion hout
    | some rs =>
      cases hmore : output_list rest with
      | none => rw [hrows, hmore] at hout; exact Option.noConfusion hout
      | some more =>
        rw [hrows, hmore] at hout
        have hre : rs ++ more = rows := Option.some.inj hout
        rw [← hre]
        rcases List.mem_cons.1 hm with heq | hmrest
        · cases heq
          exact List.mem_append_left more (mem_rowsFor n' l' rs subj r hrows hsub hb)
        · exact List.mem_append_right rs (ih more n l subj r hmore hmrest hsub hb)

/-- C8, corrected: every successfully built used-table row appears in
the table; for a rule-component subject the rule name column is the
component's (non-null) owning rule name and the usage type is `rule_`
plus the leftmost category token of the descriptor — in particular
`rule_actions` when `::actions::` is the only category token present,
and likewise for conditions and events; for any other subject the row
carries the subject's own type and a null rule name. -/
theorem c8_row_classification (usage : Results) (rows : List OutputRow)
    (n : String) (l : List Entity) (subj : Entity) (r : OutputRow)
    (hout : output_list usage = some rows) (hm : (n, l) ∈ usage) (hsub : subj ∈ l)
    (hb : buildRow n subj = some r) :
    r ∈ rows
    ∧ (subj.type = "rule_components" →
        r.usage_in_rule_name = some subj.rule_name
        ∧ (hasSub actTok subj.delegate_descriptor_id.toList = true →
            hasSub condTok subj.delegate_descriptor_id.toList = false →
            hasSub evTok subj.delegate_descriptor_id.toList = false →
            r.usage_in_type = "rule_actions")
        ∧ (hasSub condTok subj.delegate_descriptor_id.toList = true →
            hasSub actTok subj.delegate_descriptor_id.toList = false →
            hasSub evTok subj.delegate_descriptor_id.toList = false →
            r.usage_in_type = "rule_conditions")
        ∧ (hasSub evTok subj.delegate_descriptor_id.toList = true →
            hasSub actTok subj.delegate_descriptor_id.toList = false →
            hasSub condTok subj.delegate_descriptor_id.toList = false →
            r.usage_in_type = "rule_events"))
    ∧ (subj.type ≠ "rule_components" →
        r.usage_in_type = subj.type ∧ r.usage_in_rule_name = none) := by
  refine ⟨mem_output_list usage rows n l subj r hout hm hsub hb, ?_, ?_⟩
  · intro ht
    simp only [buildRow, if_pos ht] at hb
    cases hg : rcGroup subj.delegate_descriptor_id.toList with
    | none =>
      rw [hg] at hb
      exact Option.noConfusion hb
    | some g =>
      rw [hg] at hb
      have hr : r = ⟨n, "rule_" ++ g, subj.name, some subj.rule_name⟩ :=
        (Option.some.inj hb).symm
      subst hr
      refine ⟨rfl, ?_, ?_, ?_⟩
      · intro h1 h2 h3
        have hge : g = "actions" :=
          Option.some.inj (hg.symm.trans (rcGroup_of_only_actions _ h1 h2 h3))
        rw [show OutputRow.usage_in_type ⟨n, "rule_" ++ g, subj.name, some subj.rule_name⟩
          = "rule_" ++ g from rfl, hge]
        decide
      · intro h1 h2 h3
        have hge : g = "conditions" :=
          Option.some.inj (hg.symm.trans (rcGroup_of_only_conditions _ h1 h2 h3))
        rw [show OutputRow.usage_in_type ⟨n, "rule_" ++ g, subj.name, some subj.rule_name⟩
          = "rule_" ++ g from rfl, hge]
        decide
      · intro h1 h2 h3
        have hge : g = "events" :=
          Option.some.inj (hg.symm.trans (rcGroup_of_only_events _ h1 h2 h3))
        rw [show OutputRow.usage_in_type ⟨n, "rule_" ++ g, subj.name, some subj.rule_name⟩
          = "rule_" ++ g from rfl, hge]
        decide
  · intro ht
    simp only [buildRow, if_neg ht] at hb
    have hr : r = ⟨n, subj.type, subj.name, none⟩ := (Option.some.inj hb).symm
    subst hr
    exact ⟨rfl, rfl⟩

/-- C8, counterexample to the claim as stated: a rule component whose
descriptor contains `::actions::` but with `::conditions::` occurring
further left is reported as `rule_conditions`, not `rule_actions`. -/
theorem c8_row_classification_counterexample :
    output_list [("X", [subjBothCats])] = some [rowBothCats]
    ∧ subjBothCats.type = "rule_components"
    ∧ hasSub actTok subjBothCats.delegate_descriptor_id.toList = true
    ∧ rowBothCats.usage_in_type = "rule_conditions"
    ∧ rowBothCats.usage_in_type ≠ "rule_actions" := by decide

/-- C8 witness: a used table holding an actions-only rule component row
and an extension row, classified as the amended claim states. -/
theorem c8_row_classification_witness :
    rowOnlyAct ∈ [rowOnlyAct, rowExt]
    ∧ rowOnlyAct.usage_in_type = "rule_actions"
    ∧ rowOnlyAct.usage_in_rule_name = some "R2"
    ∧ rowExt.usage_in_type = "extensions"
    ∧ rowExt.usage_in_rule_name = none := by
  have h1 := c8_row_classification [("Y", [subjOnlyAct, subjExt])] [rowOnlyAct, rowExt]
    "Y" [subjOnlyAct, subjExt] subjOnlyAct rowOnlyAct (by decide) (by decide) (by decide)
    (by decide)
  have h2 := c8_row_classification [("Y", [subjOnlyAct, subjExt])] [rowOnlyAct, rowExt]
    "Y" [subjOnlyAct, subjExt] subjExt rowExt (by decide) (by decide) (by decide) (by decide)
  exact ⟨h1.1, (h1.2.1 (by decide)).2.1 (by decide) (by decide) (by decide),
    (h1.2.1 (by decide)).1, (h2.2.2 (by decide)).1, (h2.2.2 (by decide)).2⟩

/-- If every rule component's descriptor holds exactly one category
token, the three category filters partition the list by length. -/
theorem categories_length_sum (rcs : List Entity)
    (h : ∀ rc, rc ∈ rcs → categoryCount rc = 1) :
    (rule_actions rcs).length + (rule_conditions rcs).length + (rule_events rcs).length
      = rcs.length := by
  induction rcs with
  | nil => simp [rule_actions, rule_conditions, rule_events]
  | cons x t ih =>
    have hx := h x (List.mem_cons_self x t)
    have ht : ∀ rc, rc ∈ t → categoryCount rc = 1 := fun rc hrc =>
      h rc (List.mem_cons_of_mem x hrc)
    have iht := ih ht
    simp only [rule_actions, rule_conditions, rule_events, List.filter_cons,
      String.toList] at iht ⊢
    simp only [categoryCount, String.toList] at hx
    cases ha : hasSub actTok x.delegate_descriptor_id.data <;>
      cases hc : hasSub condTok x.delegate_descriptor_id.data <;>
        cases he : hasSub evTok x.delegate_descriptor_id.data <;>
          simp [ha, hc, he] at hx ⊢ <;>
            omega

/-- C10, corrected: the script's assertion holds exactly when the
category-filter lengths sum to the number of rule components; in
particular it holds whenever every rule component's descriptor contains
exactly one category token, but token counts can also compensate across
components. -/
theorem c10_assert_category_counts (rcs : List Entity) :
    (categoriesAssert rcs = true ↔
      (rule_actions rcs).length + (rule_conditions rcs).length + (rule_events rcs).length
        = rcs.length)
    ∧ ((∀ rc, rc ∈ rcs → categoryCount rc = 1) → categoriesAssert rcs = true) := by
  constructor
  · simp only [categoriesAssert, beq_iff_eq]
    exact eq_comm
  · intro h
    simp only [categoriesAssert, beq_iff_eq]
    exact (categories_length_sum rcs h).symm

/-- C10, counterexample to the claim as stated: a component holding two
category tokens and one holding none compensate, so the assertion holds
although not every component holds exactly one token and the run does
not abort. -/
theorem c10_assert_counterexample :
    categoriesAssert [rcBoth, rcNone] = true
    ∧ categoryCount rcBoth = 2 ∧ categoryCount rcNone = 0 := by decide

/-- C10 witness: a run whose single rule component holds exactly one
category token satisfies the assertion. -/
theorem c10_assert_witness : categoriesAssert [rcW10] = true :=
  (c10_assert_category_counts [rcW10]).2 (by decide)

/-- C9: the matcher is deterministic; two runs on equal serializer and
equal input collections return equal results (mapping and log). -/
theorem c9_deterministic (s1 s2 : Entity → Option (List Char))
    (d1 d2 r1 r2 e1 e2 : List Entity)
    (hs : s1 = s2) (hd : d1 = d2) (hr : r1 = r2) (he : e1 = e2) :
    find_data_element_usage s1 d1 r1 e1 = find_data_element_usage s2 d2 r2 e2 := by
  subst hs
  subst hd
  subst hr
  subst he
  rfl

/-- C9 witness: a concrete repeated run. -/
theorem c9_deterministic_witness :
    find_data_element_usage serializeAttrs [c9w] [] []
      = find_data_element_usage serializeAttrs [c9w] [] [] :=
  c9_deterministic serializeAttrs serializeAttrs [c9w] [c9w] [] [] [] [] rfl rfl rfl rfl

end LaunchUsage
